import Mathlib

/-!
Verification of the keyframe-extraction pipeline (`extract_keyframes.py`).

The Python code is shallowly embedded as follows:
- Python `str` values are modelled as `List Char`; the handful of string
  methods the script uses (`strip`, `rstrip`, `endswith`, `join`, `replace`,
  `lower`) are re-implemented below with Python's (ASCII) semantics.
- JSON documents (the analysis-result blob) are the tree type `JVal`.
  Python's `json.loads` produces `bool` for JSON booleans, and in Python
  `bool` is a subclass of `int`, so `isinstance(t, int)` accepts booleans;
  `isPyInt` reproduces that.
- Python exceptions are modelled with `Except String`; code that swallows
  exceptions (`try/except: pass`) is modelled by `Option`.
- Machine arithmetic: Python integers are unbounded, so `Int`/`Nat` model
  them exactly; Python `divmod`/`//` are floor-based (`Int.fdiv`/`Int.fmod`).
-/

/-- Python string literal, as the character list that models Python `str`. -/
def pystr (s : String) : List Char := s.data

/-- Drop the longest run of characters satisfying `p` from the right end
(used for Python `rstrip` variants). -/
def pyDropRight (p : Char → Bool) (l : List Char) : List Char :=
  (l.reverse.dropWhile p).reverse

/-- Python `str.strip()`: remove leading and trailing whitespace. -/
def pyStrip (l : List Char) : List Char :=
  pyDropRight Char.isWhitespace (l.dropWhile Char.isWhitespace)

/-- Python `str.rstrip()`: remove trailing whitespace. -/
def pyRstrip (l : List Char) : List Char :=
  pyDropRight Char.isWhitespace l

/-- Python `str.rstrip(",.")`: remove trailing commas and periods. -/
def pyRstripPunct (l : List Char) : List Char :=
  pyDropRight (fun c => c = ',' || c = '.') l

/-- Python `s.endswith(sfx)`. -/
def pyEndsWith (l sfx : List Char) : Bool := List.isSuffixOf sfx l

/-- Python `sep.join(parts)`. -/
def pyJoin (sep : List Char) (parts : List (List Char)) : List Char :=
  List.intercalate sep parts

/-- Fueled worker for `pyReplace`; one unit of fuel is spent per character
position of the subject string, which is enough since every step consumes at
least one character.  (The fuel only makes the recursion structural so that
the kernel can evaluate it; it never runs out.) -/
def pyReplaceAux : Nat → List Char → List Char → List Char → List Char
  | 0, s, _, _ => s
  | fuel + 1, s, pat, rep =>
    match s with
    | [] => []
    | c :: rest =>
      if !pat.isEmpty && pat.isPrefixOf (c :: rest) then
        rep ++ pyReplaceAux fuel ((c :: rest).drop pat.length) pat rep
      else
        c :: pyReplaceAux fuel rest pat rep

/-- Python `s.replace(pat, rep)`: replace every non-overlapping occurrence,
scanning left to right (for non-empty `pat`). -/
def pyReplace (s pat rep : List Char) : List Char :=
  pyReplaceAux s.length s pat rep

/-- Python `str.lower()` (ASCII). -/
def pyLower (l : List Char) : List Char := l.map Char.toLower

/-- Decimal digit characters of a natural number, most significant first
(fueled so that the definition is structural; `natRepr` supplies enough
fuel). -/
def digitsAux : Nat → Nat → List Char
  | 0, _ => []
  | fuel + 1, n =>
    if n < 10 then [Nat.digitChar n]
    else digitsAux fuel (n / 10) ++ [Nat.digitChar (n % 10)]

/-- Decimal representation of a natural number, as Python `str(n)`. -/
def natRepr (n : Nat) : List Char := digitsAux (n + 1) n

/-- Decimal representation of an integer, as Python `str(n)`. -/
def intRepr (n : Int) : List Char :=
  if n < 0 then '-' :: natRepr (-n).toNat else natRepr n.toNat

/-- Zero-pad the decimal representation of a natural number to width `w`
(Python `f"{n:0wd}"` for non-negative `n`). -/
def zpadNat (w : Nat) (n : Nat) : List Char :=
  List.replicate (w - (natRepr n).length) '0' ++ natRepr n

/-- Zero-pad an integer to width `w`; Python puts the padding zeros after the
sign (`f"{-5:03d}" == "-05"`). -/
def zpadInt (w : Nat) (n : Int) : List Char :=
  if n < 0 then '-' :: zpadNat (w - 1) (-n).toNat else zpadNat w n.toNat

/-- Embeds `ms_to_timecode` (extract_keyframes.py lines 43-47).  Python
`divmod` on integers is floor division and floor remainder, i.e.
`Int.fdiv`/`Int.fmod`. -/
def ms_to_timecode (ms : Int) : List Char :=
  let s := ms.fdiv 1000
  let msPart := ms.fmod 1000
  let m := s.fdiv 60
  let s2 := s.fmod 60
  let h := m.fdiv 60
  let m2 := m.fmod 60
  zpadInt 2 h ++ ':' :: zpadInt 2 m2 ++ ':' :: zpadInt 2 s2 ++ '.' :: zpadInt 3 msPart

/-- Read back a digit string as a natural number (the inverse parser used to
state the timecode round-trip). -/
def readNatChars (cs : List Char) : Nat :=
  cs.foldl (fun a c => 10 * a + (c.toNat - 48)) 0

/-- JSON-like tree produced by `json.loads`: maps (with insertion-ordered
keys), sequences, strings, integers, booleans and null.  (Documents whose
numbers are all integral are representable; none of the verified claims
involve float leaves.) -/
inductive JVal where
  | null
  | bool (b : Bool)
  | int (n : Int)
  | str (s : String)
  | arr (elems : List JVal)
  | obj (fields : List (String × JVal))

/-- Python `isinstance(t, int)`: `True`/`False` are instances of `int`
because `bool` subclasses `int`. -/
def isPyInt : JVal → Bool
  | .int _ => true
  | .bool _ => true
  | _ => false

/-- The check `isinstance(v, list) and all(isinstance(t, int) for t in v)`,
returning the elements on success. -/
def asIntList : JVal → Option (List JVal)
  | .arr xs => if xs.all isPyInt then some xs else none
  | _ => none

/-- Dictionary lookup `d[k]` / `d.get(k)` on a mapping node; `none` models
both a missing key and indexing a non-mapping (which raises in Python and is
swallowed by the caller's `except`). -/
def JVal.get? : JVal → String → Option JVal
  | .obj fields, k => fields.lookup k
  | _, _ => none

/-- Embeds the primary path of `extract_keyframe_times` (lines 63-71): the
`try` block reading `blob["result"]["contents"][0].get("KeyFrameTimesMs")`.
Every failure mode (missing key, non-mapping, non-list, empty `contents`,
failed integer check) falls through to `none`, exactly as the code's
`except Exception: pass` plus the guarded checks do. -/
def primaryTimes (blob : JVal) : Option (List JVal) :=
  match blob.get? "result" with
  | some r =>
    match r.get? "contents" with
    | some (.arr (item :: _)) =>
      match item.get? "KeyFrameTimesMs" with
      | some (.arr times) => if times.all isPyInt then some times else none
      | _ => none
    | _ => none
  | none => none

mutual

/-- Embeds the fallback `walk` (lines 74-87): depth-first, at each mapping
checking each key (match-or-recurse) in iteration order before moving on to
the next key; sequences recurse element by element in order. -/
def walkKF : JVal → Option (List JVal)
  | .obj fields => walkFields fields
  | .arr elems => walkElems elems
  | _ => none

/-- The `for k, v in obj.items()` loop of the walk (lines 76-81). -/
def walkFields : List (String × JVal) → Option (List JVal)
  | [] => none
  | (k, v) :: rest =>
    match (if k = "KeyFrameTimesMs" then asIntList v else none) with
    | some ts => some ts
    | none =>
      match walkKF v with
      | some ts => some ts
      | none => walkFields rest

/-- The `for v in list` loop of the walk (lines 82-86). -/
def walkElems : List JVal → Option (List JVal)
  | [] => none
  | v :: rest =>
    match walkKF v with
    | some ts => some ts
    | none => walkElems rest

end

/-- Error message of the locator's `ValueError` (line 91). -/
def kfErrMsg : String := "Could not find 'KeyFrameTimesMs' in JSON."

/-- Embeds `extract_keyframe_times` (lines 62-91): primary path, then the
recursive fallback, then `ValueError`. -/
def extract_keyframe_times (blob : JVal) : Except String (List JVal) :=
  match primaryTimes blob with
  | some ts => .ok ts
  | none =>
    match walkKF blob with
    | some ts => .ok ts
    | none => .error kfErrMsg

mutual

/-- A `KeyFrameTimesMs` key holding an integer list occurs somewhere in the
tree (specification-side predicate used to characterise when the fallback
search succeeds). -/
def hasKF : JVal → Bool
  | .obj fields => hasKFFields fields
  | .arr elems => hasKFElems elems
  | _ => false

/-- Occurrence check over a mapping's key/value pairs. -/
def hasKFFields : List (String × JVal) → Bool
  | [] => false
  | (k, v) :: rest =>
    ((k = "KeyFrameTimesMs") && (asIntList v).isSome) || hasKF v || hasKFFields rest

/-- Occurrence check over a sequence's elements. -/
def hasKFElems : List JVal → Bool
  | [] => false
  | v :: rest => hasKF v || hasKFElems rest

end

/-- Semantic integer value of a JSON leaf that passed `isPyInt` (Python uses
`True`/`False` as `1`/`0` in arithmetic); other leaves never reach this. -/
def jvalInt : JVal → Int
  | .int n => n
  | .bool b => if b then 1 else 0
  | _ => 0

/-- One entry of a `words` list: `w.get("text")`, `w.get("startTimeMs")`,
`w.get("endTimeMs")`.  `none` models a missing or null field (for the time
fields, `int(None)` raises `TypeError` in Python; the loop body is modelled
accordingly). -/
structure WordJ where
  text : Option (List Char)
  startTimeMs : Option Int
  endTimeMs : Option Int
deriving DecidableEq

/-- A segmented phrase: `{"text": ..., "startTimeMs": ..., "endTimeMs": ...}`
(extract_keyframes.py lines 121-125 and 133-137). -/
structure Phrase where
  text : List Char
  startTimeMs : Int
  endTimeMs : Int
deriving DecidableEq

/-- The word text appended to the accumulator: `wtext.rstrip()` where
`wtext = (w.get("text") or "").strip()` (lines 110 and 115). -/
def wordText (w : WordJ) : List Char := pyRstrip (pyStrip (w.text.getD []))

/-- Boundary test of line 117: the stripped word text ends with a comma or a
period. -/
def closesWord (w : WordJ) : Bool :=
  let wtext := pyStrip (w.text.getD [])
  pyEndsWith wtext (pystr ",") || pyEndsWith wtext (pystr ".")

/-- Text normalisation for a closed segment (lines 118-120): join with
spaces, strip, remove a space before a comma/period, strip trailing
commas/periods, strip. -/
def closedText (texts : List (List Char)) : List Char :=
  let joined := pyStrip (pyJoin (pystr " ") texts)
  let joined2 := pyReplace (pyReplace joined (pystr " ,") (pystr ",")) (pystr " .") (pystr ".")
  pyStrip (pyRstripPunct joined2)

/-- Text normalisation for the trailing flush (lines 130-131): join with
spaces, strip, strip trailing commas/periods, strip (no space-before-comma
replacement here). -/
def trailText (texts : List (List Char)) : List Char :=
  pyStrip (pyRstripPunct (pyStrip (pyJoin (pystr " ") texts)))

/-- Embeds the word loop of `extract_phrase_segments` (lines 107-127) with
the running state `(cur_words, seg_start)`; returns the closed segments plus
the final accumulator state.  A missing/null time field raises (`int(None)`),
aborting the whole segmentation. -/
def segLoop : List WordJ → List (List Char) → Option Int →
    Except String (List Phrase × List (List Char) × Option Int)
  | [], cur, segStart => .ok ([], cur, segStart)
  | w :: rest, cur, segStart =>
    match w.startTimeMs, w.endTimeMs with
    | none, _ => .error "TypeError: int() argument is None (startTimeMs)"
    | some _, none => .error "TypeError: int() argument is None (endTimeMs)"
    | some ws, some we =>
      let segStart1 := segStart.getD ws
      let cur1 := cur ++ [wordText w]
      if closesWord w then
        match segLoop rest [] none with
        | .error e => .error e
        | .ok (segs, c, s) =>
          .ok ({ text := closedText cur1, startTimeMs := segStart1, endTimeMs := we } :: segs,
               c, s)
      else
        segLoop rest cur1 (some segStart1)

/-- Embeds the trailing flush (lines 129-137).  `end_ms` is
`words[-1].get("endTimeMs")`; when it is `None` the code re-reads
`words[-1]["endTimeMs"]`, which then necessarily raises (`KeyError` for a
missing key, or `TypeError` from `int(None)`), so the `none` branch is an
error here.  The start falls back to `int(words[0].get("startTimeMs", 0))`;
a missing key defaults to `0` (a null value would raise in Python, but that
branch is proved unreachable below, see the C10 theorem). -/
def flushPhrase (wordsAll : List WordJ) (cur : List (List Char)) (segStart : Option Int) :
    Except String Phrase :=
  match wordsAll.getLast? with
  | none => .error "IndexError: words[-1] on empty list"
  | some lw =>
    match lw.endTimeMs with
    | some e =>
      let st :=
        match segStart with
        | some s => s
        | none => (wordsAll.head?.bind (fun w0 => w0.startTimeMs)).getD 0
      .ok { text := trailText cur, startTimeMs := st, endTimeMs := e }
    | none => .error "endTimeMs of last word is missing or None"

/-- Embeds the per-entry body of `extract_phrase_segments` (lines 104-137):
run the word loop, then flush any trailing accumulated words as one final
phrase. -/
def segmentEntryWords (words : List WordJ) : Except String (List Phrase) :=
  match segLoop words [] none with
  | .error e => .error e
  | .ok (segs, cur, segStart) =>
    if cur.isEmpty then .ok segs
    else
      match flushPhrase words cur segStart with
      | .error e => .error e
      | .ok ph => .ok (segs ++ [ph])

/-- Embeds `extract_phrase_segments` over the list of phrase entries (each
reduced to its `words` list): entries with no words are skipped (line
105-106), results are concatenated in order. -/
def extract_phrase_segments (entries : List (List WordJ)) : Except String (List Phrase) :=
  match entries with
  | [] => .ok []
  | ws :: rest =>
    if ws.isEmpty then extract_phrase_segments rest
    else
      match segmentEntryWords ws with
      | .error e => .error e
      | .ok segs =>
        match extract_phrase_segments rest with
        | .error e => .error e
        | .ok more => .ok (segs ++ more)

/-- Specification-side partition of a word list into blocks: a block ends
exactly at a word whose trimmed text ends with a comma or period; any
trailing words without such a terminator form one final block. -/
def blocks : List WordJ → List (List WordJ)
  | [] => []
  | w :: rest =>
    if closesWord w then [w] :: blocks rest
    else
      match blocks rest with
      | [] => [[w]]
      | b :: bs => (w :: b) :: bs

/-- Specification-side phrase of one block: start time of the first word,
end time of the last word, text normalised according to whether the block
was closed by punctuation or is the trailing block. -/
def specPhrase (blk : List WordJ) : Phrase :=
  { text :=
      if (blk.getLast?.map closesWord).getD false then closedText (blk.map wordText)
      else trailText (blk.map wordText),
    startTimeMs := (blk.head?.bind (fun w => w.startTimeMs)).getD 0,
    endTimeMs := (blk.getLast?.bind (fun w => w.endTimeMs)).getD 0 }

/-- Every word of the list carries both time fields (the hypothesis under
which the word loop cannot raise). -/
def wordsOk (ws : List WordJ) : Bool :=
  ws.all (fun w => w.startTimeMs.isSome && w.endTimeMs.isSome)

/-- Embeds `nearest_keyframe` (lines 140-141):
`min(keyframes, key=lambda k: abs(k - target_ms))`.  Python `min` keeps the
first element whose key is strictly smaller than the current best, so the
first minimiser in iteration order wins; `min` of an empty sequence raises
`ValueError`, modelled by `none`. -/
def nearest_keyframe (target_ms : Int) : List Int → Option Int
  | [] => none
  | k :: ks =>
    some (ks.foldl (fun best k2 => if |k2 - target_ms| < |best - target_ms| then k2 else best) k)

/-- Embeds `map_ffmpeg_q_to_jpeg_quality` (lines 145-154):
`q = max(1, min(31, q)); return max(0, min(100, 100 - 3 * (q - 1)))`. -/
def map_ffmpeg_q_to_jpeg_quality (q : Int) : Int :=
  max 0 (min 100 (100 - 3 * (max 1 (min 31 q) - 1)))

/-- Modelled from the spec: `clamp(x, lo, hi)` as used in the quality-mapping
formula `100 - 3*(clamp(quality,1,31) - 1)`, clamped to `[0,100]`. -/
def clampSpec (x lo hi : Int) : Int := max lo (min hi x)

/-- Modelled from the spec: the quality mapping written exactly as the claim
states it, `clamp(100 - 3*(clamp(q,1,31) - 1), 0, 100)`. -/
def qualitySpec (q : Int) : Int := clampSpec (100 - 3 * (clampSpec q 1 31 - 1)) 0 100

/-- Driver options consumed by the modelled part of `main` (lines 219-296),
after argument parsing: the four boolean flags plus the name-shaping
options. -/
structure RunArgs where
  matchPhrases : Bool
  onlyMatched : Bool
  dryRun : Bool
  timestampsOnly : Bool
  pfx : List Char
  fmtArg : List Char
  outdir : List Char

/-- Format normalisation of line 249: `"jpg" if args.format.lower() == "jpeg"
else args.format.lower()`. -/
def normFmt (fmtArg : List Char) : List Char :=
  if pyLower fmtArg = pystr "jpeg" then pystr "jpg" else pyLower fmtArg

/-- One data row of `keyframes_index.csv` (line 256): timestamp, timecode,
and the deterministic filename `{prefix}.{t}.{fmt}`. -/
structure IndexRow where
  timestampMs : Int
  timecode : List Char
  filename : List Char
deriving DecidableEq

/-- Builds one index row for keyframe timestamp `t`. -/
def indexRow (pfx fmt : List Char) (t : Int) : IndexRow :=
  { timestampMs := t,
    timecode := ms_to_timecode t,
    filename := pfx ++ '.' :: intRepr t ++ '.' :: fmt }

/-- One data row of `phrase_keyframe_map.csv` (lines 264-279). -/
structure MatchRow where
  idx : Nat
  phraseText : List Char
  startMs : Int
  endMs : Int
  anchorMs : Int
  matchedMs : Int
  matchedFilename : List Char
deriving DecidableEq

/-- Embeds the row loop of lines 264-279: 1-based index, anchor
`(start + end) // 2` (floor division), nearest keyframe (raising when the
keyframe list is empty), double quotes in the phrase text replaced by single
quotes. -/
def matchRowsGo (keyframes : List Int) (pfx fmt : List Char) :
    Nat → List Phrase → Except String (List MatchRow)
  | _, [] => .ok []
  | i, seg :: rest =>
    let anchor := (seg.startTimeMs + seg.endTimeMs).fdiv 2
    match nearest_keyframe anchor keyframes with
    | none => .error "ValueError: min() arg is an empty sequence"
    | some m =>
      match matchRowsGo keyframes pfx fmt (i + 1) rest with
      | .error e => .error e
      | .ok rows =>
        .ok ({ idx := i,
               phraseText := pyReplace seg.text (pystr "\x22") (pystr "\x27"),
               startMs := seg.startTimeMs,
               endMs := seg.endTimeMs,
               anchorMs := anchor,
               matchedMs := m,
               matchedFilename := pfx ++ '.' :: intRepr m ++ '.' :: fmt } :: rows)

/-- Filesystem effects of a run: the output-directory creation, the two CSV
artifacts (kept as structured rows; each row is serialised as one
comma-separated line by the code), and one image write per extracted frame.
Frame decoding is abstracted as succeeding; per-frame read/write failures
are outside the claims verified here. -/
inductive FsEvent where
  | mkdirOutdir (path : List Char)
  | writeIndexCsv (path : List Char) (rows : List IndexRow)
  | writePhraseCsv (path : List Char) (rows : List MatchRow)
  | writeImage (path : List Char)
deriving DecidableEq

/-- Output path of one extracted image (line 290): `outdir / f"{...}.{t}.{fmt}"`. -/
def imgPath (outdir pfx fmt : List Char) (t : Int) : List Char :=
  outdir ++ '/' :: pfx ++ '.' :: intRepr t ++ '.' :: fmt

/-- Python `sorted(matched_set)`: the deduplicated, ascending-sorted values
of the collected matches (line 284). -/
def pySortedSet (l : List Int) : List Int :=
  List.insertionSort (fun a b => a ≤ b) l.dedup

/-- Embeds the extraction-set selection of lines 282-286: the sorted matched
set when phrase-matching AND matched-only are both set, else the keyframe
list exactly as discovered. -/
def selectToExtract (matchPhrases onlyMatched : Bool) (keyframes matched : List Int) :
    List Int :=
  if matchPhrases && onlyMatched then pySortedSet matched else keyframes

/-- Embeds the effectful tail of `main` (lines 241-293) given the located
keyframes and the segmented phrases: the timestamps-only early return (line
241-244, prints only), directory creation, the always-written keyframe
index, the optional phrase map, and the per-frame extraction loop, which in
dry-run mode only prints (lines 199-201) and otherwise writes one image per
selected frame. -/
def mainEvents (args : RunArgs) (keyframes : List Int) (orows : Option (List MatchRow)) :
    List FsEvent :=
  let fmt := normFmt args.fmtArg
  let pre := [FsEvent.mkdirOutdir args.outdir,
              FsEvent.writeIndexCsv (args.outdir ++ pystr "/keyframes_index.csv")
                (keyframes.map (indexRow args.pfx fmt))]
  let phraseEvs :=
    match orows with
    | some rows =>
      [FsEvent.writePhraseCsv (args.outdir ++ pystr "/phrase_keyframe_map.csv") rows]
    | none => []
  let matched := (orows.getD []).map MatchRow.matchedMs
  let toExtract := selectToExtract args.matchPhrases args.onlyMatched keyframes matched
  let imgEvs :=
    if args.dryRun then []
    else toExtract.map (fun t => FsEvent.writeImage (imgPath args.outdir args.pfx fmt t))
  pre ++ phraseEvs ++ imgEvs

def mainRun (args : RunArgs) (keyframes : List Int) (segments : List Phrase) :
    Except String (List FsEvent) :=
  if args.timestampsOnly then .ok []
  else
    match (if args.matchPhrases then
            (matchRowsGo keyframes args.pfx (normFmt args.fmtArg) 1 segments).map some
           else .ok none) with
    | .error e => .error e
    | .ok orows => .ok (mainEvents args keyframes orows)

/-- An event that writes an image file. -/
def isImageWrite : FsEvent → Bool
  | .writeImage _ => true
  | _ => false

/-- An event that creates or writes any file. -/
def isFileWrite : FsEvent → Bool
  | .writeIndexCsv _ _ => true
  | .writePhraseCsv _ _ => true
  | .writeImage _ => true
  | .mkdirOutdir _ => false

/-- A successful run produced at least one file-writing event. -/
def runWritesAnyFile : Except String (List FsEvent) → Bool
  | .ok evs => evs.any isFileWrite
  | .error _ => false

/-- The keyframe-index row lists written by an event trace (one entry per
`keyframes_index.csv` write). -/
def indexRowsOf (evs : List FsEvent) : List (List IndexRow) :=
  evs.filterMap (fun e =>
    match e with
    | FsEvent.writeIndexCsv _ rows => some rows
    | _ => none)

/-- The image paths written by a successful run. -/
def imagePathsOf : Except String (List FsEvent) → List (List Char)
  | .ok evs =>
    evs.filterMap (fun e =>
      match e with
      | FsEvent.writeImage p => some p
      | _ => none)
  | .error _ => []

/-- Matched-keyframe column of a phrase-map computation. -/
def matchedListOf (r : Except String (List MatchRow)) : Except String (List Int) :=
  r.map (List.map MatchRow.matchedMs)

/-- Example document supplying `[0,1000,2000]` via the documented primary
path `result.contents[0].KeyFrameTimesMs`. -/
def blobPrimaryEx : JVal :=
  .obj [("result", .obj [("contents",
    .arr [.obj [("KeyFrameTimesMs", .arr [.int 0, .int 1000, .int 2000])]])])]

/-- Example document with `[0,1000,2000]` buried three levels deep in an
otherwise-unrelated tree, reachable only by the fallback search. -/
def blobBuriedEx : JVal :=
  .obj [("meta", .arr [.str "x",
          .obj [("inner", .obj [("KeyFrameTimesMs", .arr [.int 0, .int 1000, .int 2000])])]])]

/-- Example document containing no `KeyFrameTimesMs` key at all. -/
def blobMissingEx : JVal :=
  .obj [("result", .obj [("contents", .arr [.obj [("other", .int 3)]])])]

/-- Example document whose primary path holds an empty `KeyFrameTimesMs`
list: the locator returns `[]` without raising. -/
def blobEmptyKF : JVal :=
  .obj [("result", .obj [("contents", .arr [.obj [("KeyFrameTimesMs", .arr [])]])])]

/-- Example words `[{"Hello,",0,500},{"world.",600,1200}]`. -/
def exWords1 : List WordJ :=
  [{ text := some (pystr "Hello,"), startTimeMs := some 0, endTimeMs := some 500 },
   { text := some (pystr "world."), startTimeMs := some 600, endTimeMs := some 1200 }]

/-- Example words `[{"no",0,100},{"punctuation",150,400}]` (no terminal
punctuation). -/
def exWords2 : List WordJ :=
  [{ text := some (pystr "no"), startTimeMs := some 0, endTimeMs := some 100 },
   { text := some (pystr "punctuation"), startTimeMs := some 150, endTimeMs := some 400 }]

/-- A dry-run invocation without phrase matching. -/
def argsDryEx : RunArgs :=
  { matchPhrases := false, onlyMatched := false, dryRun := true, timestampsOnly := false,
    pfx := pystr "keyFrame", fmtArg := pystr "jpg", outdir := pystr "keyframes" }

/-- A matched-only phrase-matching invocation. -/
def argsMatchedEx : RunArgs :=
  { matchPhrases := true, onlyMatched := true, dryRun := false, timestampsOnly := false,
    pfx := pystr "keyFrame", fmtArg := pystr "jpg", outdir := pystr "keyframes" }

/-- Example keyframes `[0,1000,2000,3000]`. -/
def kf4 : List Int := [0, 1000, 2000, 3000]

/-- Two example phrases whose anchors `(800+1200)//2` and `(900+1100)//2`
both equal `1000`. -/
def segs2 : List Phrase :=
  [{ text := pystr "a", startTimeMs := 800, endTimeMs := 1200 },
   { text := pystr "b", startTimeMs := 900, endTimeMs := 1100 }]

/-- The fold inside `nearest_keyframe` either keeps the seed (which is then a
weak minimiser of the whole list) or lands on a list element that is a
minimiser, strictly better than the seed and strictly better than every
earlier element. -/
theorem nearestFoldSpec (t : Int) :
    ∀ (ks : List Int) (acc : Int),
      (ks.foldl (fun best k2 => if |k2 - t| < |best - t| then k2 else best) acc = acc ∧
        ∀ k ∈ ks, |acc - t| ≤ |k - t|) ∨
      (∃ i, ∃ h : i < ks.length,
        ks.foldl (fun best k2 => if |k2 - t| < |best - t| then k2 else best) acc =
          ks.get ⟨i, h⟩ ∧
        |ks.get ⟨i, h⟩ - t| < |acc - t| ∧
        (∀ k ∈ ks, |ks.get ⟨i, h⟩ - t| ≤ |k - t|) ∧
        ∀ j, ∀ hj : j < i, |ks.get ⟨i, h⟩ - t| < |ks.get ⟨j, Nat.lt_trans hj h⟩ - t|) := by
  intro ks
  induction ks with
  | nil => intro acc; exact Or.inl ⟨rfl, by simp⟩
  | cons k ks ih =>
    intro acc
    by_cases h1 : |k - t| < |acc - t|
    · have hstep : (k :: ks).foldl
          (fun best k2 => if |k2 - t| < |best - t| then k2 else best) acc =
          ks.foldl (fun best k2 => if |k2 - t| < |best - t| then k2 else best) k := by
        simp [List.foldl_cons, if_pos h1]
      rcases ih k with ⟨he, hmin⟩ | ⟨i, hi, he, hlt, hmin, hfirst⟩
      · refine Or.inr ⟨0, by simp, ?_, ?_, ?_, ?_⟩
        · simpa [hstep] using he
        · simpa using h1
        · intro x hx
          rcases List.mem_cons.mp hx with rfl | hx
          · simp
          · simpa using hmin x hx
        · intro j hj; omega
      · refine Or.inr ⟨i + 1, by simpa using Nat.succ_lt_succ hi, ?_, ?_, ?_, ?_⟩
        · simpa [hstep] using he
        · simpa using hlt.trans h1
        · intro x hx
          rcases List.mem_cons.mp hx with rfl | hx
          · simpa using hlt.le
          · simpa using hmin x hx
        · intro j hj
          match j, hj with
          | 0, _ => simpa using hlt
          | j + 1, hj => simpa using hfirst j (Nat.lt_of_succ_lt_succ hj)
    · have hstep : (k :: ks).foldl
          (fun best k2 => if |k2 - t| < |best - t| then k2 else best) acc =
          ks.foldl (fun best k2 => if |k2 - t| < |best - t| then k2 else best) acc := by
        simp [List.foldl_cons, if_neg h1]
      rcases ih acc with ⟨he, hmin⟩ | ⟨i, hi, he, hlt, hmin, hfirst⟩
      · refine Or.inl ⟨by simpa [hstep] using he, ?_⟩
        intro x hx
        rcases List.mem_cons.mp hx with rfl | hx
        · exact not_lt.mp h1
        · exact hmin x hx
      · refine Or.inr ⟨i + 1, by simpa using Nat.succ_lt_succ hi, ?_, ?_, ?_, ?_⟩
        · simpa [hstep] using he
        · simpa using hlt
        · intro x hx
          rcases List.mem_cons.mp hx with rfl | hx
          · simpa using (hlt.trans_le (not_lt.mp h1)).le
          · simpa using hmin x hx
        · intro j hj
          match j, hj with
          | 0, _ => simpa using hlt.trans_le (not_lt.mp h1)
          | j + 1, hj => simpa using hfirst j (Nat.lt_of_succ_lt_succ hj)

/-- C3: for every integer target `t` and non-empty keyframe list `ks`,
`nearest_keyframe t ks` returns an element of `ks` minimising `|k - t|`, and
on an exact tie the first minimising element in iteration order (every
earlier element is strictly farther); moreover `nearest(9,[5,10,15]) =
nearest(11,[5,10,15]) = 10` and `nearest(7,[5,9]) = 5`. -/
theorem nearest_keyframe_correct :
    (∀ (t : Int) (ks : List Int), ks ≠ [] →
      ∃ r, nearest_keyframe t ks = some r ∧ r ∈ ks ∧
        (∀ k ∈ ks, |r - t| ≤ |k - t|) ∧
        ∃ i, ∃ h : i < ks.length, ks.get ⟨i, h⟩ = r ∧
          ∀ j, ∀ hj : j < i, |r - t| < |ks.get ⟨j, Nat.lt_trans hj h⟩ - t|) ∧
    nearest_keyframe 9 [5, 10, 15] = some 10 ∧
    nearest_keyframe 11 [5, 10, 15] = some 10 ∧
    nearest_keyframe 7 [5, 9] = some 5 := by
  refine ⟨?_, by decide, by decide, by decide⟩
  intro t ks hne
  match ks, hne with
  | k :: ks, _ =>
    rcases nearestFoldSpec t ks k with ⟨he, hmin⟩ | ⟨i, hi, he, hlt, hmin, hfirst⟩
    · refine ⟨k, ?_, List.mem_cons_self k ks, ?_, 0, by simp, by simp, ?_⟩
      · simp [nearest_keyframe, he]
      · intro x hx
        rcases List.mem_cons.mp hx with rfl | hx
        · exact le_refl _
        · exact hmin x hx
      · intro j hj; omega
    · refine ⟨ks.get ⟨i, hi⟩, ?_, ?_, ?_, i + 1, by simpa using Nat.succ_lt_succ hi, by simp, ?_⟩
      · simp [nearest_keyframe, he]
      · exact List.mem_cons_of_mem k (ks.get_mem i hi)
      · intro x hx
        rcases List.mem_cons.mp hx with rfl | hx
        · exact hlt.le
        · exact hmin x hx
      · intro j hj
        match j, hj with
        | 0, _ => simpa using hlt
        | j + 1, hj => simpa using hfirst j (Nat.lt_of_succ_lt_succ hj)

/-- C3 witness: the universal part of `nearest_keyframe_correct` applied at
`t = 7`, `ks = [5, 9]`. -/
theorem nearest_keyframe_correct_witness :
    ([5, 9] : List Int) ≠ [] ∧
    ∃ r, nearest_keyframe 7 [5, 9] = some r ∧ r ∈ ([5, 9] : List Int) ∧
      (∀ k ∈ ([5, 9] : List Int), |r - 7| ≤ |k - 7|) ∧
      ∃ i, ∃ h : i < ([5, 9] : List Int).length, ([5, 9] : List Int).get ⟨i, h⟩ = r ∧
        ∀ j, ∀ hj : j < i, |r - 7| < |([5, 9] : List Int).get ⟨j, Nat.lt_trans hj h⟩ - 7| :=
  ⟨by decide, nearest_keyframe_correct.1 7 [5, 9] (by decide)⟩

set_option maxRecDepth 4000 in
/-- A two-digit zero-padded field renders with exactly two characters and
parses back to its value, for every value below 100. -/
theorem zpad2_spec : ∀ n : Nat, n < 100 →
    (zpadNat 2 n).length = 2 ∧ readNatChars (zpadNat 2 n) = n := by decide

set_option maxHeartbeats 1000000 in
set_option maxRecDepth 10000 in
/-- A three-digit zero-padded field renders with exactly three characters
and parses back to its value, for every value below 1000. -/
theorem zpad3_spec : ∀ n : Nat, n < 1000 →
    (zpadNat 3 n).length = 3 ∧ readNatChars (zpadNat 3 n) = n := by decide

/-- C9: for every non-negative `ms` below 100 hours, `ms_to_timecode ms` is
exactly 12 characters in the shape `HH:MM:SS.mmm` (four zero-padded fields
of widths 2, 2, 2, 3 separated by `:`, `:`, `.`), and re-reading the four
fields as `h*3600000 + m*60000 + s*1000 + mmm` recovers `ms`.  (Totality on
all non-negative integers holds by construction: `ms_to_timecode` is a total
function.) -/
theorem timecode_roundtrip :
    ∀ ms : Int, 0 ≤ ms → ms < 360000000 →
      (ms_to_timecode ms).length = 12 ∧
      ∃ hh mm ss mmm : List Char,
        ms_to_timecode ms = hh ++ ':' :: mm ++ ':' :: ss ++ '.' :: mmm ∧
        hh.length = 2 ∧ mm.length = 2 ∧ ss.length = 2 ∧ mmm.length = 3 ∧
        (readNatChars hh * 3600000 + readNatChars mm * 60000 +
          readNatChars ss * 1000 + readNatChars mmm : Int) = ms := by
  intro ms h0 h1
  have htc : ms_to_timecode ms =
      zpadInt 2 (ms / 1000 / 60 / 60) ++ ':' :: zpadInt 2 (ms / 1000 / 60 % 60) ++
        ':' :: zpadInt 2 (ms / 1000 % 60) ++ '.' :: zpadInt 3 (ms % 1000) := by
    simp only [ms_to_timecode]
    rw [Int.fdiv_eq_ediv _ (by norm_num), Int.fmod_eq_emod _ (by norm_num),
        Int.fdiv_eq_ediv _ (by norm_num), Int.fmod_eq_emod _ (by norm_num),
        Int.fdiv_eq_ediv _ (by norm_num), Int.fmod_eq_emod _ (by norm_num)]
  have hz1 : zpadInt 2 (ms / 1000 / 60 / 60) = zpadNat 2 (ms / 1000 / 60 / 60).toNat := by
    simp only [zpadInt]; rw [if_neg (by omega)]
  have hz2 : zpadInt 2 (ms / 1000 / 60 % 60) = zpadNat 2 (ms / 1000 / 60 % 60).toNat := by
    simp only [zpadInt]; rw [if_neg (by omega)]
  have hz3 : zpadInt 2 (ms / 1000 % 60) = zpadNat 2 (ms / 1000 % 60).toNat := by
    simp only [zpadInt]; rw [if_neg (by omega)]
  have hz4 : zpadInt 3 (ms % 1000) = zpadNat 3 (ms % 1000).toNat := by
    simp only [zpadInt]; rw [if_neg (by omega)]
  obtain ⟨l1, r1⟩ := zpad2_spec (ms / 1000 / 60 / 60).toNat (by omega)
  obtain ⟨l2, r2⟩ := zpad2_spec (ms / 1000 / 60 % 60).toNat (by omega)
  obtain ⟨l3, r3⟩ := zpad2_spec (ms / 1000 % 60).toNat (by omega)
  obtain ⟨l4, r4⟩ := zpad3_spec (ms % 1000).toNat (by omega)
  refine ⟨?_, zpadNat 2 (ms / 1000 / 60 / 60).toNat, zpadNat 2 (ms / 1000 / 60 % 60).toNat,
    zpadNat 2 (ms / 1000 % 60).toNat, zpadNat 3 (ms % 1000).toNat, ?_, l1, l2, l3, l4, ?_⟩
  · rw [htc, hz1, hz2, hz3, hz4]
    simp [List.length_append, l1, l2, l3, l4]
  · rw [htc, hz1, hz2, hz3, hz4]
  · rw [r1, r2, r3, r4]; omega

/-- C9 witness: `timecode_roundtrip` applied at `ms = 3723456`
(which formats as `01:02:03.456`). -/
theorem timecode_roundtrip_witness :
    (0 : Int) ≤ 3723456 ∧ (3723456 : Int) < 360000000 ∧
      ((ms_to_timecode 3723456).length = 12 ∧
      ∃ hh mm ss mmm : List Char,
        ms_to_timecode 3723456 = hh ++ ':' :: mm ++ ':' :: ss ++ '.' :: mmm ∧
        hh.length = 2 ∧ mm.length = 2 ∧ ss.length = 2 ∧ mmm.length = 3 ∧
        (readNatChars hh * 3600000 + readNatChars mm * 60000 +
          readNatChars ss * 1000 + readNatChars mmm : Int) = 3723456) :=
  ⟨by decide, by decide, timecode_roundtrip 3723456 (by decide) (by decide)⟩

/-- An `asIntList` success yields exactly the element list of an array all
of whose elements pass the Python integer check. -/
theorem asIntList_some_iff (v : JVal) (ts : List JVal) :
    asIntList v = some ts ↔ v = .arr ts ∧ ts.all isPyInt = true := by
  constructor
  · intro h
    cases v with
    | arr xs =>
      by_cases hall : xs.all isPyInt = true
      · simp only [asIntList] at h
        rw [if_pos hall] at h
        cases h
        exact ⟨rfl, hall⟩
      · simp only [asIntList] at h
        rw [if_neg hall] at h
        cases h
    | null => simp [asIntList] at h
    | bool b => simp [asIntList] at h
    | int n => simp [asIntList] at h
    | str s => simp [asIntList] at h
    | obj f => simp [asIntList] at h
  · rintro ⟨rfl, hall⟩
    simp [asIntList, hall]

/-- The fallback walk succeeds exactly when some `KeyFrameTimesMs` key with
an integer-list value occurs in the tree. -/
theorem walkKF_isSome_iff : ∀ b : JVal, (walkKF b).isSome = hasKF b := by
  refine walkKF.induct
    (fun b => (walkKF b).isSome = hasKF b)
    (fun es => (walkElems es).isSome = hasKFElems es)
    (fun fs => (walkFields fs).isSome = hasKFFields fs)
    ?_ ?_ ?_ ?_ ?_ ?_ ?_ ?_ ?_ ?_
  · intro fields h; simpa [walkKF, hasKF] using h
  · intro elems h; simpa [walkKF, hasKF] using h
  · intro t h1 h2
    cases t with
    | obj f => exact (h1 f rfl).elim
    | arr e => exact (h2 e rfl).elim
    | null => simp [walkKF, hasKF]
    | bool b => simp [walkKF, hasKF]
    | int n => simp [walkKF, hasKF]
    | str s => simp [walkKF, hasKF]
  · simp [walkElems, hasKFElems]
  · intro v rest ts hw ih
    simp [walkElems, hasKFElems, hw, ← ih]
  · intro v rest hw ih1 ih2
    simp [walkElems, hasKFElems, hw, ← ih1, ih2]
  · simp [walkFields, hasKFFields]
  · intro k v rest ts hif
    by_cases hk : k = "KeyFrameTimesMs"
    · rw [if_pos hk] at hif
      simp [walkFields, hasKFFields, hk, hif]
    · rw [if_neg hk] at hif
      cases hif
  · intro k v rest hif ts hw ih
    simp [walkFields, hasKFFields, hif, hw, ← ih]
  · intro k v rest hif hw ih1 ih2
    by_cases hk : k = "KeyFrameTimesMs"
    · rw [if_pos hk] at hif
      simp [walkFields, hasKFFields, hk, hif, hw, ← ih1, ih2]
    · simp [walkFields, hasKFFields, hk, hw, ← ih1, ih2]

/-- The fallback walk fails exactly when no `KeyFrameTimesMs` key with an
integer-list value occurs anywhere in the tree. -/
theorem walkKF_none_iff (b : JVal) : walkKF b = none ↔ hasKF b = false := by
  rw [← walkKF_isSome_iff b]
  cases walkKF b <;> simp

/-- Whatever list the fallback walk returns passes the element-wise Python
integer check. -/
theorem walkKF_all_int : ∀ b ts, walkKF b = some ts → ts.all isPyInt = true := by
  refine walkKF.induct
    (fun b => ∀ ts, walkKF b = some ts → ts.all isPyInt = true)
    (fun es => ∀ ts, walkElems es = some ts → ts.all isPyInt = true)
    (fun fs => ∀ ts, walkFields fs = some ts → ts.all isPyInt = true)
    ?_ ?_ ?_ ?_ ?_ ?_ ?_ ?_ ?_ ?_
  · intro fields h ts hw; exact h ts (by simpa [walkKF] using hw)
  · intro elems h ts hw; exact h ts (by simpa [walkKF] using hw)
  · intro t h1 h2 ts hw
    cases t with
    | obj f => exact (h1 f rfl).elim
    | arr e => exact (h2 e rfl).elim
    | null => simp [walkKF] at hw
    | bool b => simp [walkKF] at hw
    | int n => simp [walkKF] at hw
    | str s => simp [walkKF] at hw
  · intro ts hw; simp [walkElems] at hw
  · intro v rest ts hwv ih ts2 hw
    have h3 := ih ts hwv
    simp [walkElems, hwv] at hw
    rwa [← hw]
  · intro v rest hwv ih1 ih2 ts hw
    apply ih2
    simpa [walkElems, hwv] using hw
  · intro ts hw; simp [walkFields] at hw
  · intro k v rest ts hif ts2 hw
    by_cases hk : k = "KeyFrameTimesMs"
    · rw [if_pos hk] at hif
      have hprop := (asIntList_some_iff v ts).mp hif
      simp [walkFields, hk, hif] at hw
      rw [← hw]
      exact hprop.2
    · rw [if_neg hk] at hif
      cases hif
  · intro k v rest hif ts hwv ih ts2 hw
    have h3 := ih ts hwv
    simp [walkFields, hif, hwv] at hw
    rwa [← hw]
  · intro k v rest hif hwv ih1 ih2 ts hw
    apply ih2
    simpa [walkFields, hif, hwv] using hw

/-- The primary path succeeds exactly when
`blob["result"]["contents"]` is a non-empty list whose first element maps
`KeyFrameTimesMs` to a list passing the integer check, and then it returns
that list verbatim. -/
theorem primaryTimes_iff (b : JVal) (ts : List JVal) :
    primaryTimes b = some ts ↔
      ∃ r item rest, b.get? "result" = some r ∧
        r.get? "contents" = some (.arr (item :: rest)) ∧
        item.get? "KeyFrameTimesMs" = some (.arr ts) ∧ ts.all isPyInt = true := by
  unfold primaryTimes
  constructor
  · intro h
    split at h
    · next r hr =>
      split at h
      · next item rest hc =>
        split at h
        · next times hk =>
          split at h
          · next hall => cases h; exact ⟨r, item, rest, hr, hc, hk, hall⟩
          · cases h
        · cases h
      · cases h
    · cases h
  · rintro ⟨r, item, rest, h1, h2, h3, h4⟩
    simp only [h1, h2, h3]
    rw [if_pos h4]

/-- Whatever list the primary path returns passes the element-wise Python
integer check. -/
theorem primaryTimes_all_int (b : JVal) (ts : List JVal)
    (h : primaryTimes b = some ts) : ts.all isPyInt = true :=
  ((primaryTimes_iff b ts).mp h).choose_spec.choose_spec.choose_spec.2.2.2

/-- C1: the locator returns `result.result.contents[0].KeyFrameTimesMs`
verbatim whenever that path holds a list passing the integer check
(`primaryTimes` is exactly that path, including the absent/malformed/raising
cases, which all yield `none`); when the primary path yields nothing, it
returns the result of the depth-first match-or-recurse walk; and it raises
(`ValueError`, the spec's `MissingKeyframesError`) if and only if the
primary path yields nothing and no `KeyFrameTimesMs` integer list occurs
anywhere in the tree — i.e. exactly when neither path yields a result.  The
concrete conjuncts check the spec's examples: `[0,1000,2000]` is found via
the primary path, and via a position buried three levels deep in an
unrelated structure, and the error is raised when the key is absent. -/
theorem keyframe_locator_correct :
    (∀ b : JVal,
      (∀ ts, primaryTimes b = some ts →
        (∃ r item rest, b.get? "result" = some r ∧
          r.get? "contents" = some (.arr (item :: rest)) ∧
          item.get? "KeyFrameTimesMs" = some (.arr ts) ∧ ts.all isPyInt = true) ∧
        extract_keyframe_times b = .ok ts) ∧
      (∀ ts, primaryTimes b = none → walkKF b = some ts →
        extract_keyframe_times b = .ok ts) ∧
      ((∃ e, extract_keyframe_times b = .error e) ↔
        primaryTimes b = none ∧ hasKF b = false)) ∧
    extract_keyframe_times blobPrimaryEx = .ok [.int 0, .int 1000, .int 2000] ∧
    extract_keyframe_times blobBuriedEx = .ok [.int 0, .int 1000, .int 2000] ∧
    extract_keyframe_times blobMissingEx = .error kfErrMsg := by
  refine ⟨?_, rfl, rfl, rfl⟩
  intro b
  refine ⟨?_, ?_, ?_⟩
  · intro ts h
    refine ⟨(primaryTimes_iff b ts).mp h, ?_⟩
    unfold extract_keyframe_times
    rw [h]
  · intro ts hp hw
    unfold extract_keyframe_times
    rw [hp, hw]
  · unfold extract_keyframe_times
    constructor
    · rintro ⟨e, he⟩
      split at he
      · cases he
      · next hp =>
        split at he
        · cases he
        · next hw => exact ⟨hp, (walkKF_none_iff b).mp hw⟩
    · rintro ⟨hp, hk⟩
      rw [hp, (walkKF_none_iff b).mpr hk]
      exact ⟨kfErrMsg, rfl⟩

/-- C1 witness: the primary-path clause of `keyframe_locator_correct`
applied to `blobPrimaryEx`, and the fallback clause applied to
`blobBuriedEx`, discharging the hypotheses at those concrete documents. -/
theorem keyframe_locator_correct_witness :
    (primaryTimes blobPrimaryEx = some [.int 0, .int 1000, .int 2000] ∧
      extract_keyframe_times blobPrimaryEx = .ok [.int 0, .int 1000, .int 2000]) ∧
    (primaryTimes blobBuriedEx = none ∧
      extract_keyframe_times blobBuriedEx = .ok [.int 0, .int 1000, .int 2000]) :=
  ⟨⟨rfl, ((keyframe_locator_correct.1 blobPrimaryEx).1 [.int 0, .int 1000, .int 2000] rfl).2⟩,
   ⟨rfl, (keyframe_locator_correct.1 blobBuriedEx).2.1 [.int 0, .int 1000, .int 2000] rfl rfl⟩⟩

/-- C5 counterexample: the locator returns the empty list without raising on
a well-formed document whose `KeyFrameTimesMs` list is empty, so "every
keyframe sequence the locator returns without raising is non-empty" is
false, and the matcher's empty-sequence failure (`min` of an empty sequence)
is reachable on a locator-produced sequence. -/
theorem locator_returns_empty_counterexample :
    extract_keyframe_times blobEmptyKF = .ok [] ∧
    nearest_keyframe 0 (([] : List JVal).map jvalInt) = none :=
  ⟨rfl, rfl⟩

/-- C5 (amended): every sequence the locator returns without raising passes
the element-wise Python integer check, but it is not guaranteed non-empty;
the matcher's precondition therefore is not ensured by the pipeline.  On
every non-empty integer sequence the matcher does succeed, so its
empty-sequence failure is reachable exactly via an empty locator result. -/
theorem locator_result_ints_matcher_total :
    (∀ b ts, extract_keyframe_times b = .ok ts → ts.all isPyInt = true) ∧
    (∀ (t : Int) (ks : List Int), ks ≠ [] → (nearest_keyframe t ks).isSome = true) := by
  constructor
  · intro b ts h
    unfold extract_keyframe_times at h
    split at h
    · next hp => cases h; exact primaryTimes_all_int b _ hp
    · split at h
      · next hw => cases h; exact walkKF_all_int b _ hw
      · cases h
  · intro t ks hne
    match ks, hne with
    | k :: ks, _ => simp [nearest_keyframe]

/-- C5 witness: `locator_result_ints_matcher_total` applied at the concrete
document `blobPrimaryEx` and at the concrete call `nearest(7, [5, 9])`. -/
theorem locator_result_ints_matcher_total_witness :
    (extract_keyframe_times blobPrimaryEx = .ok [.int 0, .int 1000, .int 2000] ∧
      ([.int 0, .int 1000, .int 2000] : List JVal).all isPyInt = true) ∧
    (([5, 9] : List Int) ≠ [] ∧ (nearest_keyframe 7 [5, 9]).isSome = true) :=
  ⟨⟨rfl, locator_result_ints_matcher_total.1 blobPrimaryEx [.int 0, .int 1000, .int 2000] rfl⟩,
   ⟨by decide, locator_result_ints_matcher_total.2 7 [5, 9] (by decide)⟩⟩

/-- C7: the quality mapping equals `clamp(100 - 3*(clamp(q,1,31) - 1), 0,
100)` for every integer `q`, and maps `1` to `100`, `31` to `10`, `16` to
`55`. -/
theorem quality_mapping_correct :
    (∀ q : Int, map_ffmpeg_q_to_jpeg_quality q = qualitySpec q) ∧
    map_ffmpeg_q_to_jpeg_quality 1 = 100 ∧
    map_ffmpeg_q_to_jpeg_quality 31 = 10 ∧
    map_ffmpeg_q_to_jpeg_quality 16 = 55 :=
  ⟨fun _ => rfl, by decide, by decide, by decide⟩

/-- The first element surviving `dropWhile p` does not satisfy `p`. -/
theorem dropWhile_head_not {α : Type} (p : α → Bool) :
    ∀ (l : List α) (x : α) (xs : List α), l.dropWhile p = x :: xs → p x = false := by
  intro l
  induction l with
  | nil => intro x xs h; cases h
  | cons a l ih =>
    intro x xs h
    by_cases hpa : p a = true
    · rw [List.dropWhile_cons_of_pos hpa] at h
      exact ih x xs h
    · rw [List.dropWhile_cons_of_neg hpa] at h
      cases h
      simpa using hpa

/-- Running the word loop over a prefix of non-closing words only extends the
text accumulator and fixes the pending start time to the prefix's first start
(when none was pending). -/
theorem segLoop_noClose_append :
    ∀ (t ws : List WordJ) (cur : List (List Char)) (st : Option Int),
      (∀ w ∈ t, closesWord w = false) → wordsOk t = true →
      segLoop (t ++ ws) cur st =
        segLoop ws (cur ++ t.map wordText)
          (match st with
           | some s => some s
           | none => t.head?.bind (fun w => w.startTimeMs)) := by
  intro t
  induction t with
  | nil =>
    intro ws cur st hnc hok
    cases st <;> simp
  | cons d t ih =>
    intro ws cur st hnc hok
    simp only [wordsOk, List.all_cons, Bool.and_eq_true] at hok
    obtain ⟨⟨hs1, he1⟩, hrest⟩ := hok
    obtain ⟨sd, hsd⟩ := Option.isSome_iff_exists.mp hs1
    obtain ⟨ed, hed⟩ := Option.isSome_iff_exists.mp he1
    have hncd : closesWord d = false := hnc d (List.mem_cons_self d t)
    have hnct : ∀ w ∈ t, closesWord w = false := fun w hw => hnc w (List.mem_cons_of_mem d hw)
    rw [List.cons_append]
    simp only [segLoop, hsd, hed, hncd]
    rw [ih ws (cur ++ [wordText d]) (some (st.getD sd)) hnct hrest]
    cases st <;> simp [hsd]

/-- A non-empty run of words without a closing word forms a single block. -/
theorem blocks_noCloser :
    ∀ (t : List WordJ), t ≠ [] → (∀ w ∈ t, closesWord w = false) → blocks t = [t] := by
  intro t
  induction t with
  | nil => intro h; exact absurd rfl h
  | cons d t ih =>
    intro _ hnc
    have hncd : closesWord d = false := hnc d (List.mem_cons_self d t)
    have hnct : ∀ w ∈ t, closesWord w = false := fun w hw => hnc w (List.mem_cons_of_mem d hw)
    cases t with
    | nil => simp [blocks, hncd]
    | cons e t2 =>
      have hb : blocks (e :: t2) = [e :: t2] := ih (by simp) hnct
      show (if closesWord d = true then [d] :: blocks (e :: t2)
            else match blocks (e :: t2) with | [] => [[d]] | b :: bs => (d :: b) :: bs) =
          [d :: e :: t2]
      rw [hb, if_neg (by simp [hncd])]

/-- Splitting off the first block: a closer-free prefix followed by a closing
word is the first block, and the remaining words are partitioned
independently. -/
theorem blocks_split :
    ∀ (t : List WordJ) (c : WordJ) (rest : List WordJ),
      (∀ w ∈ t, closesWord w = false) → closesWord c = true →
      blocks (t ++ c :: rest) = (t ++ [c]) :: blocks rest := by
  intro t
  induction t with
  | nil => intro c rest _ hc; simp [blocks, hc]
  | cons d t ih =>
    intro c rest hnc hc
    have hncd : closesWord d = false := hnc d (List.mem_cons_self d t)
    have hnct : ∀ w ∈ t, closesWord w = false := fun w hw => hnc w (List.mem_cons_of_mem d hw)
    rw [List.cons_append]
    have hb := ih c rest hnct hc
    show (if closesWord d = true then [d] :: blocks (t ++ c :: rest)
          else match blocks (t ++ c :: rest) with | [] => [[d]] | b :: bs => (d :: b) :: bs) =
        ((d :: t) ++ [c]) :: blocks rest
    rw [hb, if_neg (by simp [hncd])]
    rfl

/-- The last element of an append is the last element of a non-empty second
part. -/
theorem getLast?_append_right {α : Type} (l1 l2 : List α) (h : l2 ≠ []) :
    (l1 ++ l2).getLast? = l2.getLast? := by
  rw [List.getLast?_append]
  cases hl : l2.getLast? with
  | none => exact absurd (by simpa using hl) h
  | some a => rfl

/-- The last element of a list is a member of it. -/
theorem mem_of_getLast?_eq {α : Type} (l : List α) (a : α) (h : l.getLast? = some a) :
    a ∈ l := by
  have h2 := List.mem_getLast?_eq_getLast (l := l) (x := a) (by simp [h])
  obtain ⟨hh, rfl⟩ := h2
  exact List.getLast_mem hh

/-- Every word of a `wordsOk` list carries concrete start and end times. -/
theorem wordsOk_mem (l : List WordJ) (w : WordJ) (hok : wordsOk l = true) (hw : w ∈ l) :
    ∃ s e, w.startTimeMs = some s ∧ w.endTimeMs = some e := by
  have h1 := List.all_eq_true.mp hok w hw
  simp only [Bool.and_eq_true] at h1
  obtain ⟨s, hs⟩ := Option.isSome_iff_exists.mp h1.1
  obtain ⟨e, he⟩ := Option.isSome_iff_exists.mp h1.2
  exact ⟨s, e, hs, he⟩

/-- Loop invariant of the segmenter: the pending start time is `none` exactly
when the text accumulator is empty (they are set and reset together). -/
theorem segLoop_sync :
    ∀ (ws : List WordJ) (cur : List (List Char)) (st : Option Int) segs cur2 st2,
      (st = none ↔ cur = []) → segLoop ws cur st = .ok (segs, cur2, st2) →
      (st2 = none ↔ cur2 = []) := by
  intro ws
  induction ws with
  | nil =>
    intro cur st segs cur2 st2 hiff h
    simp only [segLoop, Except.ok.injEq, Prod.mk.injEq] at h
    obtain ⟨_, h2, h3⟩ := h
    rw [← h2, ← h3]
    exact hiff
  | cons w ws ih =>
    intro cur st segs cur2 st2 hiff h
    cases hs : w.startTimeMs with
    | none => simp [segLoop, hs] at h
    | some sw =>
      cases he : w.endTimeMs with
      | none => simp [segLoop, hs, he] at h
      | some ew =>
        by_cases hc : closesWord w = true
        · cases hrec : segLoop ws [] none with
          | error e => simp [segLoop, hs, he, hc, hrec] at h
          | ok trip =>
            obtain ⟨segs3, cur3, st3⟩ := trip
            have hsync := ih [] none segs3 cur3 st3 (by simp) hrec
            simp only [segLoop, hs, he, hc, if_true, hrec, Except.ok.injEq,
              Prod.mk.injEq] at h
            obtain ⟨_, h2, h3⟩ := h
            rw [← h2, ← h3]
            exact hsync
        · have hstep : segLoop (w :: ws) cur st =
              segLoop ws (cur ++ [wordText w]) (some (st.getD sw)) := by
            simp [segLoop, hs, he, hc]
          rw [hstep] at h
          exact ih _ _ _ _ _ (by simp) h

/-- If the word loop completes with a non-empty accumulator, then either no
word was processed at all (the accumulator was inherited), or the last word of
the list was processed, so its `endTimeMs` converted successfully. -/
theorem segLoop_last_end :
    ∀ (ws : List WordJ) (cur : List (List Char)) (st : Option Int) segs cur2 st2,
      segLoop ws cur st = .ok (segs, cur2, st2) → cur2 ≠ [] →
      (ws = [] ∧ cur2 = cur ∧ st2 = st) ∨
      (∃ lw e, ws.getLast? = some lw ∧ lw.endTimeMs = some e) := by
  intro ws
  induction ws with
  | nil =>
    intro cur st segs cur2 st2 h hne
    simp only [segLoop, Except.ok.injEq, Prod.mk.injEq] at h
    exact Or.inl ⟨rfl, h.2.1.symm, h.2.2.symm⟩
  | cons w ws ih =>
    intro cur st segs cur2 st2 h hne
    cases hs : w.startTimeMs with
    | none => simp [segLoop, hs] at h
    | some sw =>
      cases he : w.endTimeMs with
      | none => simp [segLoop, hs, he] at h
      | some ew =>
        by_cases hc : closesWord w = true
        · cases hrec : segLoop ws [] none with
          | error e => simp [segLoop, hs, he, hc, hrec] at h
          | ok trip =>
            obtain ⟨segs3, cur3, st3⟩ := trip
            simp only [segLoop, hs, he, hc, if_true, hrec, Except.ok.injEq,
              Prod.mk.injEq] at h
            obtain ⟨_, h2, _⟩ := h
            rcases ih [] none segs3 cur3 st3 hrec (by rw [h2]; exact hne) with
              ⟨_, hcur, _⟩ | ⟨lw, e, hl, hee⟩
            · exact absurd (h2 ▸ hcur) hne
            · have hwsne : ws ≠ [] := by
                intro hx
                rw [hx] at hl
                cases hl
              refine Or.inr ⟨lw, e, ?_, hee⟩
              rw [show (w :: ws) = [w] ++ ws from rfl, getLast?_append_right [w] ws hwsne]
              exact hl
        · have hstep : segLoop (w :: ws) cur st =
              segLoop ws (cur ++ [wordText w]) (some (st.getD sw)) := by
            simp [segLoop, hs, he, hc]
          rw [hstep] at h
          rcases ih _ _ _ _ _ h hne with ⟨hwnil, _, _⟩ | ⟨lw, e, hl, hee⟩
          · refine Or.inr ⟨w, ew, ?_, he⟩
            rw [hwnil]
            rfl
          · have hwsne : ws ≠ [] := by
              intro hx
              rw [hx] at hl
              cases hl
            refine Or.inr ⟨lw, e, ?_, hee⟩
            rw [show (w :: ws) = [w] ++ ws from rfl, getLast?_append_right [w] ws hwsne]
            exact hl

/-- The specification-side phrase of a block closed by `c` has the closed-text
normalisation, the first accumulated start time and `c`'s end time. -/
theorem specPhrase_closedBlock (t : List WordJ) (c : WordJ) (sc ec : Int)
    (hsc : c.startTimeMs = some sc) (hec : c.endTimeMs = some ec)
    (hc : closesWord c = true) (hokt : wordsOk t = true) :
    specPhrase (t ++ [c]) =
      { text := closedText ((t ++ [c]).map wordText),
        startTimeMs := (t.head?.bind (fun w => w.startTimeMs)).getD sc,
        endTimeMs := ec } := by
  cases t with
  | nil =>
    simp [specPhrase, hc, hsc, hec]
  | cons w0 t1 =>
    obtain ⟨s0, e0, hs0, he0⟩ := wordsOk_mem _ w0 hokt (List.mem_cons_self w0 t1)
    have hlast : (w0 :: (t1 ++ [c])).getLast? = some c := by
      rw [← List.cons_append]
      exact List.getLast?_concat _
    simp [specPhrase, hlast, hc, hec, hs0]

/-- The specification-side phrase of a trailing closer-free block has the
trailing-text normalisation, the first word's start and the last word's end. -/
theorem specPhrase_trailBlock (ws : List WordJ) (s0 e0 : Int) (lw : WordJ)
    (hne : ws ≠ [])
    (hst : ws.head?.bind (fun w => w.startTimeMs) = some s0)
    (hlw : ws.getLast? = some lw) (hee : lw.endTimeMs = some e0)
    (hnc : ∀ w ∈ ws, closesWord w = false) :
    specPhrase ws =
      { text := trailText (ws.map wordText), startTimeMs := s0, endTimeMs := e0 } := by
  have hlc : closesWord lw = false := hnc lw (mem_of_getLast?_eq _ _ hlw)
  cases ws with
  | nil => exact absurd rfl hne
  | cons w0 t1 =>
    simp only [List.head?_cons, Option.bind_some] at hst
    simp [specPhrase, hlw, hlc, hee, hst]

/-- Main segmentation lemma (by strong induction on the word-list length):
on a word list whose time fields are all present, the per-entry segmenter
returns exactly one phrase per `blocks`-partition block, built by
`specPhrase`. -/
theorem segmentEntry_blocksAux :
    ∀ (n : Nat) (ws : List WordJ), ws.length ≤ n → wordsOk ws = true →
      segmentEntryWords ws = .ok ((blocks ws).map specPhrase) := by
  intro n
  induction n with
  | zero =>
    intro ws hlen hok
    have hnil : ws = [] := List.length_eq_zero.mp (Nat.le_zero.mp hlen)
    subst hnil
    rfl
  | succ n ih =>
    intro ws hlen hok
    have hsplit : ws.takeWhile (fun w => !closesWord w) ++
        ws.dropWhile (fun w => !closesWord w) = ws :=
      List.takeWhile_append_dropWhile (fun w => !closesWord w) ws
    have hnc : ∀ w ∈ ws.takeWhile (fun w => !closesWord w), closesWord w = false := by
      intro w hw
      have h1 := List.mem_takeWhile_imp hw
      simpa using h1
    cases hdc : ws.dropWhile (fun w => !closesWord w) with
    | nil =>
      have hws : ws.takeWhile (fun w => !closesWord w) = ws := by
        rw [hdc, List.append_nil] at hsplit
        exact hsplit
      have hncws : ∀ w ∈ ws, closesWord w = false := fun w hw => hnc w (by rw [hws]; exact hw)
      cases ws with
      | nil => rfl
      | cons w0 ws1 =>
        obtain ⟨s0, e0x, hs0, _⟩ := wordsOk_mem _ w0 hok (List.mem_cons_self w0 ws1)
        have hA := segLoop_noClose_append (w0 :: ws1) [] [] none hncws hok
        rw [List.append_nil] at hA
        obtain ⟨lw, hlw⟩ : ∃ lw, (w0 :: ws1).getLast? = some lw := by
          cases hgl : (w0 :: ws1).getLast? with
          | none => simp at hgl
          | some lw => exact ⟨lw, rfl⟩
        obtain ⟨slw, elw, _, helw⟩ := wordsOk_mem _ lw hok (mem_of_getLast?_eq _ _ hlw)
        have hL : segmentEntryWords (w0 :: ws1) =
            .ok [⟨trailText ((w0 :: ws1).map wordText), s0, elw⟩] := by
          simp only [segmentEntryWords]
          rw [hA]
          simp only [segLoop]
          simp [flushPhrase, hlw, helw, hs0]
        have hR : (blocks (w0 :: ws1)).map specPhrase =
            [⟨trailText ((w0 :: ws1).map wordText), s0, elw⟩] := by
          rw [blocks_noCloser _ (by simp) hncws]
          simp [specPhrase_trailBlock (w0 :: ws1) s0 elw lw (by simp) (by simp [hs0]) hlw
            helw hncws]
        rw [hL, hR]
    | cons c rest =>
      have hcc : closesWord c = true := by
        have h2 := dropWhile_head_not (fun w => !closesWord w) ws c rest hdc
        simpa using h2
      rw [hdc] at hsplit
      rw [← hsplit] at hok ⊢
      set t := ws.takeWhile (fun w => !closesWord w) with hT
      simp only [wordsOk, List.all_append, List.all_cons, Bool.and_eq_true] at hok
      obtain ⟨hokt0, ⟨hcs, hce⟩, hokrest0⟩ := hok
      have hokt : wordsOk t = true := by simp [wordsOk, List.all_eq_true] at hokt0 ⊢; exact hokt0
      have hokrest : wordsOk rest = true := by
        simp [wordsOk, List.all_eq_true] at hokrest0 ⊢
        exact hokrest0
      obtain ⟨sc, hsc⟩ := Option.isSome_iff_exists.mp hcs
      obtain ⟨ec, hec⟩ := Option.isSome_iff_exists.mp hce
      have hlr : rest.length ≤ n := by
        have h3 := congrArg List.length hsplit
        simp only [List.length_append, List.length_cons] at h3
        omega
      have hihr := ih rest hlr hokrest
      have hA := segLoop_noClose_append t (c :: rest) [] none hnc hokt
      have hA' : segLoop (t ++ c :: rest) [] none =
          segLoop (c :: rest) (t.map wordText) (t.head?.bind (fun w => w.startTimeMs)) := by
        rw [hA]
        simp
      cases hrec : segLoop rest [] none with
      | error e =>
        simp [segmentEntryWords, hrec] at hihr
      | ok trip =>
        obtain ⟨segs, cur2, st2⟩ := trip
        have hB : segLoop (c :: rest) (t.map wordText) (t.head?.bind (fun w => w.startTimeMs)) =
            .ok (⟨closedText (t.map wordText ++ [wordText c]),
                  (t.head?.bind (fun w => w.startTimeMs)).getD sc, ec⟩ :: segs, cur2, st2) := by
          simp [segLoop, hsc, hec, hcc, hrec]
        have hp1 := specPhrase_closedBlock t c sc ec hsc hec hcc hokt
        have hblk : blocks (t ++ c :: rest) = (t ++ [c]) :: blocks rest :=
          blocks_split t c rest hnc hcc
        by_cases hcur2 : cur2 = []
        · subst hcur2
          have hihr2 : segs = (blocks rest).map specPhrase := by
            simp [segmentEntryWords, hrec] at hihr
            exact hihr
          have hL : segmentEntryWords (t ++ c :: rest) =
              .ok (specPhrase (t ++ [c]) :: segs) := by
            simp only [segmentEntryWords]
            rw [hA', hB]
            simp [hp1, List.map_append]
          rw [hL, hblk, List.map_cons, hihr2]
        · have hsync := segLoop_sync rest [] none segs cur2 st2 (by simp) hrec
          obtain ⟨s2, hs2⟩ : ∃ s2, st2 = some s2 := by
            cases hst2 : st2 with
            | none => exact absurd (hsync.mp hst2) hcur2
            | some s2 => exact ⟨s2, rfl⟩
          rcases segLoop_last_end rest [] none segs cur2 st2 hrec hcur2 with
            ⟨_, hcur, _⟩ | ⟨lw, e0, hlast, hee⟩
          · exact absurd hcur hcur2
          have hrne : rest ≠ [] := by
            intro hx
            rw [hx] at hlast
            cases hlast
          have hgl : (t ++ c :: rest).getLast? = some lw := by
            rw [getLast?_append_right t (c :: rest) (by simp)]
            rw [show (c :: rest) = [c] ++ rest from rfl, getLast?_append_right [c] rest hrne]
            exact hlast
          have hihr2 : segs ++ [⟨trailText cur2, s2, e0⟩] = (blocks rest).map specPhrase := by
            simp [segmentEntryWords, hrec, hcur2, flushPhrase, hlast, hee, hs2] at hihr
            exact hihr
          have hL : segmentEntryWords (t ++ c :: rest) =
              .ok (specPhrase (t ++ [c]) :: (segs ++ [⟨trailText cur2, s2, e0⟩])) := by
            simp only [segmentEntryWords]
            rw [hA', hB]
            simp [hcur2, flushPhrase, hgl, hee, hs2, hp1, List.map_append]
          rw [hL, hblk, List.map_cons, hihr2]

/-- C2: the segmenter partitions the words in order into phrases — a phrase
closes exactly at a word whose trimmed text ends with a comma or period,
taking that word's `endTimeMs` and the first accumulated word's
`startTimeMs`, and trailing un-flushed words form one final phrase ending at
the last word's `endTimeMs` (`blocks`/`specPhrase` state exactly this
partition); in particular `[{"Hello,",0,500},{"world.",600,1200}]` yields
exactly `{"Hello",0,500}` and `{"world",600,1200}`, and
`[{"no",0,100},{"punctuation",150,400}]` yields exactly
`{"no punctuation",0,400}`. -/
theorem phrase_segmenter_partition :
    (∀ ws : List WordJ, wordsOk ws = true →
      segmentEntryWords ws = .ok ((blocks ws).map specPhrase)) ∧
    segmentEntryWords exWords1 =
      .ok [⟨pystr "Hello", 0, 500⟩, ⟨pystr "world", 600, 1200⟩] ∧
    segmentEntryWords exWords2 = .ok [⟨pystr "no punctuation", 0, 400⟩] := by
  refine ⟨fun ws hok => segmentEntry_blocksAux ws.length ws le_rfl hok, ?_, ?_⟩
  · rfl
  · rfl

/-- C2 witness: `phrase_segmenter_partition` applied at the concrete word
list `exWords2`, discharging the `wordsOk` hypothesis there. -/
theorem phrase_segmenter_partition_witness :
    wordsOk exWords2 = true ∧
    segmentEntryWords exWords2 = .ok ((blocks exWords2).map specPhrase) :=
  ⟨by decide, phrase_segmenter_partition.1 exWords2 (by decide)⟩

/-- C10: whenever the word loop completes without raising and leaves a
non-empty accumulator, the last word's `endTimeMs` snapshot is present
(`some e`), the trailing phrase's `endTimeMs` equals that directly-read
value, and therefore the guard of the secondary fallback branch
(`end_ms is None`) is false — the re-read branch is unreachable. -/
theorem trailing_end_direct :
    ∀ (ws : List WordJ) (segs : List Phrase) (cur : List (List Char)) (st : Option Int),
      segLoop ws [] none = .ok (segs, cur, st) → cur ≠ [] →
      ∃ lw e ph, ws.getLast? = some lw ∧ lw.endTimeMs = some e ∧
        flushPhrase ws cur st = .ok ph ∧ ph.endTimeMs = e ∧
        segmentEntryWords ws = .ok (segs ++ [ph]) := by
  intro ws segs cur st hloop hne
  rcases segLoop_last_end ws [] none segs cur st hloop hne with ⟨_, hcur, _⟩ | ⟨lw, e, hl, hee⟩
  · exact absurd hcur hne
  have hsync := segLoop_sync ws [] none segs cur st (by simp) hloop
  obtain ⟨s2, hs2⟩ : ∃ s2, st = some s2 := by
    cases hst : st with
    | none => exact absurd (hsync.mp hst) hne
    | some s2 => exact ⟨s2, rfl⟩
  refine ⟨lw, e, ⟨trailText cur, s2, e⟩, hl, hee, ?_, rfl, ?_⟩
  · simp [flushPhrase, hl, hee, hs2]
  · simp [segmentEntryWords, hloop, hne, flushPhrase, hl, hee, hs2]

/-- C10 witness: `trailing_end_direct` applied at the concrete word list
`exWords2`, discharging both hypotheses there. -/
theorem trailing_end_direct_witness :
    segLoop exWords2 [] none = .ok ([], [pystr "no", pystr "punctuation"], some 0) ∧
    ([pystr "no", pystr "punctuation"] : List (List Char)) ≠ [] ∧
    ∃ lw e ph, exWords2.getLast? = some lw ∧ lw.endTimeMs = some e ∧
      flushPhrase exWords2 [pystr "no", pystr "punctuation"] (some 0) = .ok ph ∧
      ph.endTimeMs = e ∧ segmentEntryWords exWords2 = .ok ([] ++ [ph]) :=
  ⟨by rfl, by decide,
   trailing_end_direct exWords2 [] [pystr "no", pystr "punctuation"] (some 0)
     (by rfl) (by decide)⟩

/-- C4: with phrase-matching and matched-only both requested the extraction
set is the deduplicated ascending-sorted set of matched keyframes (sorted,
duplicate-free, same membership as the matched list); in every other flag
combination it is the full keyframe list in original order without dedup, so
matched-only without phrase-matching has no effect; and for keyframes
`[0,1000,2000,3000]` with two phrases both matching `1000`, the phrase map
has two rows referencing `1000` while the extraction set is `[1000]`. -/
theorem extraction_set_selection :
    (∀ (kf matched : List Int), selectToExtract true true kf matched = pySortedSet matched ∧
      List.Sorted (fun a b => a ≤ b) (pySortedSet matched) ∧ (pySortedSet matched).Nodup ∧
      (∀ x : Int, x ∈ pySortedSet matched ↔ x ∈ matched)) ∧
    (∀ (mp om : Bool) (kf matched : List Int), (mp && om) = false →
      selectToExtract mp om kf matched = kf) ∧
    (∀ (om : Bool) (kf matched : List Int), selectToExtract false om kf matched = kf) ∧
    matchedListOf (matchRowsGo kf4 (pystr "keyFrame") (pystr "jpg") 1 segs2) =
      .ok [1000, 1000] ∧
    selectToExtract true true kf4 [1000, 1000] = [1000] ∧
    imagePathsOf (mainRun argsMatchedEx kf4 segs2) =
      [imgPath (pystr "keyframes") (pystr "keyFrame") (pystr "jpg") 1000] := by
  refine ⟨?_, ?_, ?_, by rfl, by rfl, by rfl⟩
  · intro kf matched
    refine ⟨rfl, List.sorted_insertionSort _ _,
      (List.perm_insertionSort _ _).nodup_iff.mpr matched.nodup_dedup, ?_⟩
    intro x
    unfold pySortedSet
    rw [List.Perm.mem_iff (List.perm_insertionSort _ _), List.mem_dedup]
  · intro mp om kf matched h
    simp [selectToExtract, h]
  · intro om kf matched
    simp [selectToExtract]

/-- C4 witness: the no-effect clause of `extraction_set_selection` applied
at concrete flags and lists. -/
theorem extraction_set_selection_witness :
    ((true && false) = false) ∧ selectToExtract true false kf4 [1000, 1000] = kf4 :=
  ⟨by decide, extraction_set_selection.2.1 true false kf4 [1000, 1000] (by decide)⟩

/-- Every successful non-timestamps-only run produces exactly the event list
`mainEvents` for some phrase-map row set. -/
theorem mainRun_ok_shape :
    ∀ (args : RunArgs) (kf : List Int) (segs : List Phrase) (evs : List FsEvent),
      args.timestampsOnly = false → mainRun args kf segs = .ok evs →
      ∃ orows, evs = mainEvents args kf orows := by
  intro args kf segs evs hts h
  unfold mainRun at h
  rw [if_neg (by simp [hts])] at h
  cases hor : (if args.matchPhrases then
      (matchRowsGo kf args.pfx (normFmt args.fmtArg) 1 segs).map some
    else .ok none) with
  | error e2 =>
    rw [hor] at h
    exact Except.noConfusion h
  | ok orows =>
    rw [hor] at h
    exact ⟨orows, (Except.ok.inj h).symm⟩

/-- In dry-run mode the emitted events contain no image write. -/
theorem mainEvents_image_free :
    ∀ (args : RunArgs) (kf : List Int) (orows : Option (List MatchRow)),
      args.dryRun = true → ∀ e ∈ mainEvents args kf orows, isImageWrite e = false := by
  intro args kf orows hdry e he
  cases orows with
  | none =>
    simp [mainEvents, hdry] at he
    rcases he with he | he <;> rw [he] <;> rfl
  | some rows =>
    simp [mainEvents, hdry] at he
    rcases he with he | he | he <;> rw [he] <;> rfl

/-- C6 (amended): when the dry-run flag is set, no image file is created or
written — the would-be operation is only reported; however the run still
creates the output directory and writes the CSV artifacts, so the
filesystem is still mutated (see the counterexample). -/
theorem dry_run_no_image_writes :
    ∀ (args : RunArgs) (kf : List Int) (segs : List Phrase) (evs : List FsEvent),
      args.dryRun = true → mainRun args kf segs = .ok evs →
      ∀ e ∈ evs, isImageWrite e = false := by
  intro args kf segs evs hdry hrun e he
  by_cases hts : args.timestampsOnly = true
  · unfold mainRun at hrun
    rw [if_pos hts] at hrun
    cases hrun
    simp at he
  · obtain ⟨orows, rfl⟩ :=
      mainRun_ok_shape args kf segs evs (by simpa using hts) hrun
    exact mainEvents_image_free args kf orows hdry e he

/-- C6 witness: `dry_run_no_image_writes` applied to a concrete dry run,
discharging both hypotheses there. -/
theorem dry_run_no_image_writes_witness :
    argsDryEx.dryRun = true ∧
    mainRun argsDryEx [0] [] = .ok [FsEvent.mkdirOutdir (pystr "keyframes"),
      FsEvent.writeIndexCsv (pystr "keyframes" ++ pystr "/keyframes_index.csv")
        [indexRow (pystr "keyFrame") (pystr "jpg") 0]] ∧
    ∀ e ∈ [FsEvent.mkdirOutdir (pystr "keyframes"),
      FsEvent.writeIndexCsv (pystr "keyframes" ++ pystr "/keyframes_index.csv")
        [indexRow (pystr "keyFrame") (pystr "jpg") 0]], isImageWrite e = false :=
  ⟨rfl, by rfl, dry_run_no_image_writes argsDryEx [0] [] _ rfl (by rfl)⟩

/-- C6 counterexample: a dry run with one keyframe and no phrase matching
still writes `keyframes_index.csv`, so "no other file is created or written"
is false as stated — dry-run only suppresses the image writes. -/
theorem dry_run_still_writes_csv_counterexample :
    runWritesAnyFile (mainRun argsDryEx [0] []) = true := by rfl

/-- The single keyframe-index artifact of a run lists one row per discovered
keyframe regardless of the flags and of the phrase rows. -/
theorem indexRowsOf_mainEvents :
    ∀ (args : RunArgs) (kf : List Int) (orows : Option (List MatchRow)),
      indexRowsOf (mainEvents args kf orows) =
        [kf.map (indexRow args.pfx (normFmt args.fmtArg))] := by
  intro args kf orows
  cases orows with
  | none =>
    cases hdry : args.dryRun <;>
      simp [mainEvents, indexRowsOf, List.filterMap_append, List.filterMap_map, hdry]
  | some rows =>
    cases hdry : args.dryRun <;>
      simp [mainEvents, indexRowsOf, List.filterMap_append, List.filterMap_map, hdry]

/-- C8: every run that reaches artifact emission writes exactly one
`keyframes_index.csv` whose rows are `kf.map (indexRow ...)` — one row per
discovered keyframe, in discovery order, with filename
`{prefix}.{timestamp_ms}.{format}` — independent of the matched-only and
phrase-matching flags (the row list is a function of the keyframes, prefix
and format only). -/
theorem index_csv_rows :
    ∀ (args : RunArgs) (kf : List Int) (segs : List Phrase) (evs : List FsEvent),
      args.timestampsOnly = false → mainRun args kf segs = .ok evs →
      indexRowsOf evs = [kf.map (indexRow args.pfx (normFmt args.fmtArg))] ∧
      (kf.map (indexRow args.pfx (normFmt args.fmtArg))).length = kf.length ∧
      (∀ t : Int, (indexRow args.pfx (normFmt args.fmtArg) t).timestampMs = t ∧
        (indexRow args.pfx (normFmt args.fmtArg) t).filename =
          args.pfx ++ '.' :: intRepr t ++ '.' :: normFmt args.fmtArg) := by
  intro args kf segs evs hts hrun
  obtain ⟨orows, rfl⟩ := mainRun_ok_shape args kf segs evs hts hrun
  exact ⟨indexRowsOf_mainEvents args kf orows, List.length_map _ _, fun t => ⟨rfl, rfl⟩⟩

/-- C8 witness: `index_csv_rows` applied to a concrete run with keyframe
`[5]`, discharging both hypotheses there. -/
theorem index_csv_rows_witness :
    argsDryEx.timestampsOnly = false ∧
    mainRun argsDryEx [5] [] = .ok [FsEvent.mkdirOutdir (pystr "keyframes"),
      FsEvent.writeIndexCsv (pystr "keyframes" ++ pystr "/keyframes_index.csv")
        [indexRow (pystr "keyFrame") (pystr "jpg") 5]] ∧
    indexRowsOf [FsEvent.mkdirOutdir (pystr "keyframes"),
      FsEvent.writeIndexCsv (pystr "keyframes" ++ pystr "/keyframes_index.csv")
        [indexRow (pystr "keyFrame") (pystr "jpg") 5]] =
      [([5] : List Int).map (indexRow argsDryEx.pfx (normFmt argsDryEx.fmtArg))] :=
  ⟨rfl, by rfl,
   (index_csv_rows argsDryEx [5] [] [FsEvent.mkdirOutdir (pystr "keyframes"),
      FsEvent.writeIndexCsv (pystr "keyframes" ++ pystr "/keyframes_index.csv")
        [indexRow (pystr "keyFrame") (pystr "jpg") 5]] rfl (by rfl)).1⟩
